import Mathlib

/-!
# cloud-nuke: classic Elastic Load Balancers (aws/resources/elb.go)

A shallow embedding of the three methods of `LoadBalancers`:
`waitUntilElbDeleted`, `getAll` and `nukeAll`.

Modelling conventions.

* A Go `*string` is an `Option String` (`none` is the nil pointer); a Go
  `error` is an `Option Error` (`none` is the nil error); a nil slice and an
  empty slice are both `[]`; a `time.Time` instant is an `Int`.
* The AWS client is an interface.  Its answers are given by the number of
  earlier calls of the same operation together with the argument of the call,
  so every deterministic client (every sequence of call results) is covered.
* The effects of the methods are made explicit in a `World`: the report
  ledger that `report.Record` appends to, the client calls issued so far in
  order, and the seconds spent in `time.Sleep`.
* `logging.Debug`/`logging.Debugf` only write to the log sink and are not
  represented, except that their arguments are evaluated: `*name` on a nil
  pointer panics.
-/

namespace CloudNuke

/-! ## Data model -/

/-- Go `error` values that the code distinguishes. `awserr` is a value
implementing `awserr.Error` (with its `Code()`), `ElbDeleteError` is the
repository's timeout error, `withStackTrace` is what go-commons
`errors.WithStackTrace` produces, `plain` is any other error. -/
inductive Error where
  | awserr (code : String) (message : String)
  | plain (message : String)
  | ElbDeleteError
  | withStackTrace (cause : Error)
deriving DecidableEq, Repr

/-- The condition of elb.go line 21:
`awsErr, isAwsErr := err.(awserr.Error); isAwsErr && awsErr.Code() == "LoadBalancerNotFound"`. -/
def Error.isLoadBalancerNotFound : Error → Bool
  | .awserr code _ => code == "LoadBalancerNotFound"
  | _ => false

/-- Function `errors.WithStackTrace` of go-commons on a non-nil error (the only way
elb.go calls it): the error wrapped with a stack trace. -/
def WithStackTrace (err : Error) : Error := .withStackTrace err

/-- Go `aws.StringValue`: the pointed-to string, or "" for a nil pointer. -/
def StringValue : Option String → String
  | some s => s
  | none => ""

/-- Go `report.Entry`, one line of the report ledger. -/
structure Entry where
  Identifier : String
  ResourceType : String
  Error : Option Error
deriving DecidableEq, Repr

/-- Go `elb.DeleteLoadBalancerInput`. -/
structure DeleteLoadBalancerInput where
  LoadBalancerName : Option String
deriving DecidableEq, Repr

/-- Go `elb.DescribeLoadBalancersInput`. -/
structure DescribeLoadBalancersInput where
  LoadBalancerNames : List (Option String)
deriving DecidableEq, Repr

/-- Go `elb.LoadBalancerDescription`, the two fields that elb.go reads. -/
structure LoadBalancerDescription where
  LoadBalancerName : Option String
  CreatedTime : Option Int
deriving DecidableEq, Repr

/-- Go `elb.DescribeLoadBalancersOutput`; the SDK fills the slice with non-nil
descriptions. -/
structure DescribeLoadBalancersOutput where
  LoadBalancerDescriptions : List LoadBalancerDescription
deriving DecidableEq, Repr

/-- One call issued to the client. -/
inductive Call where
  | DeleteLoadBalancer (input : DeleteLoadBalancerInput)
  | DescribeLoadBalancers (input : DescribeLoadBalancersInput)
deriving DecidableEq, Repr

/-- Whether a call is a delete call. -/
def Call.isDelete : Call → Bool
  | .DeleteLoadBalancer _ => true
  | .DescribeLoadBalancers _ => false

/-- Whether a call is a describe call. -/
def Call.isDescribe : Call → Bool
  | .DeleteLoadBalancer _ => false
  | .DescribeLoadBalancers _ => true

/-- The state outside the methods: the report ledger, the client calls
issued so far (oldest first) and the seconds slept. -/
structure World where
  report : List Entry
  calls : List Call
  slept : Nat
deriving DecidableEq, Repr

/-- Number of delete calls issued so far. -/
def World.deleteCount (w : World) : Nat := w.calls.countP Call.isDelete

/-- Number of describe calls issued so far. -/
def World.describeCount (w : World) : Nat := w.calls.countP Call.isDescribe

/-- Go `report.Record`: append the entry to the ledger. -/
def World.Record (w : World) (e : Entry) : World :=
  ⟨w.report ++ [e], w.calls, w.slept⟩

/-- Note a call in the trace of client calls. -/
def World.issue (w : World) (c : Call) : World :=
  ⟨w.report, w.calls ++ [c], w.slept⟩

/-- Go `time.Sleep(1 * time.Second)`. -/
def World.Sleep (w : World) : World :=
  ⟨w.report, w.calls, w.slept + 1⟩

/-- The two methods of `elbiface.ELBAPI` that elb.go calls. The first
argument is the number of earlier calls of the same method. -/
structure ELBAPI where
  DeleteLoadBalancerWithContext : Nat → DeleteLoadBalancerInput → Option Error
  DescribeLoadBalancersWithContext :
    Nat → DescribeLoadBalancersInput → DescribeLoadBalancersOutput × Option Error

/-- Issue one delete call: the call is traced and its error returned. -/
def ELBAPI.delete (c : ELBAPI) (input : DeleteLoadBalancerInput) (w : World) :
    World × Option Error :=
  (w.issue (.DeleteLoadBalancer input), c.DeleteLoadBalancerWithContext w.deleteCount input)

/-- Issue one describe call: the call is traced and its result returned. -/
def ELBAPI.describe (c : ELBAPI) (input : DescribeLoadBalancersInput) (w : World) :
    World × (DescribeLoadBalancersOutput × Option Error) :=
  (w.issue (.DescribeLoadBalancers input), c.DescribeLoadBalancersWithContext w.describeCount input)

/-! ## waitUntilElbDeleted (elb.go lines 17-33) -/

/-- The loop `for i := 0; i < 30; i++` with `n` iterations left. -/
def waitLoop (c : ELBAPI) (input : DescribeLoadBalancersInput) : Nat → World → World × Option Error
  | 0, w => (w, some Error.ElbDeleteError)
  | n + 1, w =>
    match c.describe input w with
    | (w1, (_, some err)) =>
      if err.isLoadBalancerNotFound then (w1, none) else (w1, some err)
    | (w1, (_, none)) => waitLoop c input n w1.Sleep

/-- Method `LoadBalancers.waitUntilElbDeleted`. -/
def waitUntilElbDeleted (c : ELBAPI) (input : DescribeLoadBalancersInput) (w : World) :
    World × Option Error :=
  waitLoop c input 30 w

/-! ## nukeAll (elb.go lines 56-100) -/

/-- How a call ends: it returns a value, or it panics (nil pointer
dereference). -/
inductive Outcome (α : Type) where
  | returned (value : α)
  | panicked
deriving DecidableEq, Repr

/-- The loop `for _, name := range names` of `nukeAll`, with the local
`deletedNames` as accumulator. The result is the final `deletedNames`, or
`none` when `*name` panicked. -/
def nukeLoop (c : ELBAPI) :
    List (Option String) → List (Option String) → World → World × Option (List (Option String))
  | [], deletedNames, w => (w, some deletedNames)
  | name :: rest, deletedNames, w =>
    match c.delete ⟨name⟩ w with
    | (w1, err) =>
      let w2 := w1.Record ⟨StringValue name, "Load Balancer (v1)", err⟩
      match err with
      | some _ => nukeLoop c rest deletedNames w2
      | none =>
        match name with
        | none => (w2, none)
        | some _ => nukeLoop c rest (deletedNames ++ [name]) w2

/-- Method `LoadBalancers.nukeAll`. -/
def nukeAll (c : ELBAPI) (names : List (Option String)) (w : World) :
    World × Outcome (Option Error) :=
  if names.length = 0 then (w, .returned none)
  else
    match nukeLoop c names [] w with
    | (w1, none) => (w1, .panicked)
    | (w1, some deletedNames) =>
      if deletedNames.length > 0 then
        match waitUntilElbDeleted c ⟨deletedNames⟩ w1 with
        | (w2, some err) => (w2, .returned (some (WithStackTrace err)))
        | (w2, none) => (w2, .returned none)
      else (w1, .returned none)

/-! ## getAll (elb.go lines 36-53) and the rule configuration -/

/-- Modelled from the spec: `config.Expression` of package config, which is
not among the sources. A compiled regular expression is represented by its
match predicate (`RE.MatchString`); the regular-expression engine itself is
the Go standard library. -/
structure Expression where
  MatchString : String → Bool

/-- Modelled from the spec: the tag option `Tag: {Key, Value?}` of an
exclusion rule (spec section 6); package config is not among the sources. -/
structure TagRule where
  Key : String
  Value : Option String
deriving DecidableEq, Repr

/-- Modelled from the spec: `config.FilterRule` of package config, with the
options of spec section 6 (`NamesRegExp`, `TimeAfter`, `Tag`). -/
structure FilterRule where
  NamesRegExp : List Expression
  TimeAfter : Option Int
  Tag : Option TagRule

/-- Modelled from the spec: `config.ResourceType` of package config, an
inclusion rule and an exclusion rule. -/
structure ResourceType where
  IncludeRule : FilterRule
  ExcludeRule : FilterRule

/-- Go `config.ResourceValue` as elb.go builds it (`Name`, `Time`), together
with the tag set of a candidate (spec section 3), which elb.go leaves
unset. -/
structure ResourceValue where
  Name : Option String
  Time : Option Int
  Tags : List (String × String)
deriving DecidableEq, Repr

/-- Go `config.Config`, the one field that elb.go reads. -/
structure Config where
  ELBv1 : ResourceType

/-- Modelled from the spec: whether some pattern of the list matches the
candidate's name (spec 4.2, steps 1 and 5). A candidate without a name
matches no pattern. -/
def matchesAnyName (patterns : List Expression) : Option String → Bool
  | some name => patterns.any (fun re => re.MatchString name)
  | none => false

/-- Modelled from the spec: spec 4.2 step 2, the exclusion time threshold is
set and the candidate's timestamp is after it. -/
def isAfterThreshold : Option Int → Option Int → Bool
  | some threshold, some t => decide (threshold < t)
  | _, _ => false

/-- Modelled from the spec: spec 4.2 step 3, the exclusion tag rule is set
and the candidate carries a matching tag (key, or key and value). -/
def carriesTag : Option TagRule → List (String × String) → Bool
  | some rule, tags =>
    tags.any (fun kv =>
      kv.1 == rule.Key &&
        (match rule.Value with
         | some v => kv.2 == v
         | none => true))
  | none, _ => false

/-- Modelled from the spec: `config.ResourceType.ShouldInclude` of package
config, which is not among the sources; the five steps of spec 4.2 in
order. The inclusion rules are the name patterns of `IncludeRule`, the one
inclusion option of spec section 6. -/
def ResourceType.ShouldInclude (r : ResourceType) (value : ResourceValue) : Bool :=
  if matchesAnyName r.ExcludeRule.NamesRegExp value.Name then false
  else if isAfterThreshold r.ExcludeRule.TimeAfter value.Time then false
  else if carriesTag r.ExcludeRule.Tag value.Tags then false
  else if r.IncludeRule.NamesRegExp.isEmpty then true
  else matchesAnyName r.IncludeRule.NamesRegExp value.Name

/-- The loop `for _, balancer := range result.LoadBalancerDescriptions` of
`getAll`, with the local `names` as accumulator. The filter method
`ShouldInclude` of package config is a parameter. -/
def getAllLoop (ShouldInclude : ResourceType → ResourceValue → Bool) (configObj : Config) :
    List LoadBalancerDescription → List (Option String) → List (Option String)
  | [], names => names
  | balancer :: rest, names =>
    if ShouldInclude configObj.ELBv1 ⟨balancer.LoadBalancerName, balancer.CreatedTime, []⟩ then
      getAllLoop ShouldInclude configObj rest (names ++ [balancer.LoadBalancerName])
    else getAllLoop ShouldInclude configObj rest names

/-- Method `LoadBalancers.getAll`. The result is the pair `(names, err)`. -/
def getAll (ShouldInclude : ResourceType → ResourceValue → Bool) (c : ELBAPI)
    (configObj : Config) (w : World) : World × (List (Option String) × Option Error) :=
  match c.describe ⟨[]⟩ w with
  | (w1, (_, some err)) => (w1, ([], some (WithStackTrace err)))
  | (w1, (result, none)) =>
    (w1, (getAllLoop ShouldInclude configObj result.LoadBalancerDescriptions [], none))

/-! ## Specification vocabulary -/

/-- The trace of a delete call for one name. -/
def deleteCall (name : Option String) : Call := .DeleteLoadBalancer ⟨name⟩

/-- The error returned by the delete call for `name` when `k` delete calls
were issued before it. -/
def deleteResult (c : ELBAPI) (k : Nat) (name : String) : Option Error :=
  c.DeleteLoadBalancerWithContext k ⟨some name⟩

/-- The error returned by the describe call for `input` when `k` describe
calls were issued before it. -/
def describeError (c : ELBAPI) (k : Nat) (input : DescribeLoadBalancersInput) : Option Error :=
  (c.DescribeLoadBalancersWithContext k input).2

/-- The names of a batch whose delete call returned no error, in input
order, when `k` delete calls were issued before the batch. -/
def succeededNames (c : ELBAPI) (k : Nat) (names : List String) : List (Option String) :=
  ((names.enumFrom k).filter (fun p => (deleteResult c p.1 p.2).isNone)).map (fun p => some p.2)

/-! ## Example clients -/

/-- A client on which every delete succeeds and every describe answers
LoadBalancerNotFound. -/
def goneClient : ELBAPI :=
  ⟨fun _ _ => none, fun _ _ => (⟨[]⟩, some (.awserr "LoadBalancerNotFound" "no such load balancer"))⟩

/-- A client on which every delete succeeds and the load balancers never
disappear: every describe lists the queried names without error. -/
def lingeringClient : ELBAPI :=
  ⟨fun _ _ => none, fun _ input => (⟨input.LoadBalancerNames.map (fun n => ⟨n, none⟩)⟩, none)⟩

/-- A client whose delete call answers LoadBalancerNotFound. -/
def alreadyGoneClient : ELBAPI :=
  ⟨fun _ _ => some (.awserr "LoadBalancerNotFound" "no such load balancer"),
    fun _ _ => (⟨[]⟩, some (.awserr "LoadBalancerNotFound" "no such load balancer"))⟩

/-- A client whose second delete call fails, and whose third describe call
fails with a throttling error after two calls without error. -/
def flakyClient : ELBAPI :=
  ⟨fun k _ => if k = 1 then some (.plain "AccessDenied") else none,
    fun k _ => if k < 2 then (⟨[]⟩, none) else (⟨[]⟩, some (.plain "Throttling"))⟩

/-- A client whose describe call lists the given load balancers. -/
def listingClient (listing : List LoadBalancerDescription) : ELBAPI :=
  ⟨fun _ _ => none, fun _ _ => (⟨listing⟩, none)⟩

/-- A rule set without any rule. -/
def emptyRules : ResourceType := ⟨⟨[], none, none⟩, ⟨[], none, none⟩⟩

/-- The expression `^test-lb1$`, which matches the name test-lb1 only. -/
def onlyTestLb1 : Expression := ⟨fun name => name == "test-lb1"⟩

/-- The rule set with the exclusion rule obtained from `r` by dropping its
exclusion name patterns. -/
def ResourceType.withoutNameExclusion (r : ResourceType) : ResourceType :=
  ⟨r.IncludeRule, ⟨[], r.ExcludeRule.TimeAfter, r.ExcludeRule.Tag⟩⟩

/-- The world before anything happened. -/
def World.empty : World := ⟨[], [], 0⟩

/-! ## Bookkeeping lemmas about the world -/

@[simp] theorem deleteCount_issue_delete (w : World) (input : DeleteLoadBalancerInput) :
    (w.issue (.DeleteLoadBalancer input)).deleteCount = w.deleteCount + 1 := by
  simp [World.issue, World.deleteCount, List.countP_append, Call.isDelete]

@[simp] theorem deleteCount_issue_describe (w : World) (input : DescribeLoadBalancersInput) :
    (w.issue (.DescribeLoadBalancers input)).deleteCount = w.deleteCount := by
  simp [World.issue, World.deleteCount, List.countP_append, Call.isDelete]

@[simp] theorem describeCount_issue_describe (w : World) (input : DescribeLoadBalancersInput) :
    (w.issue (.DescribeLoadBalancers input)).describeCount = w.describeCount + 1 := by
  simp [World.issue, World.describeCount, List.countP_append, Call.isDescribe]

@[simp] theorem describeCount_issue_delete (w : World) (input : DeleteLoadBalancerInput) :
    (w.issue (.DeleteLoadBalancer input)).describeCount = w.describeCount := by
  simp [World.issue, World.describeCount, List.countP_append, Call.isDescribe]

@[simp] theorem deleteCount_Record (w : World) (e : Entry) :
    (w.Record e).deleteCount = w.deleteCount := rfl

@[simp] theorem describeCount_Record (w : World) (e : Entry) :
    (w.Record e).describeCount = w.describeCount := rfl

@[simp] theorem deleteCount_Sleep (w : World) : w.Sleep.deleteCount = w.deleteCount := rfl

@[simp] theorem describeCount_Sleep (w : World) : w.Sleep.describeCount = w.describeCount := rfl

@[simp] theorem report_issue (w : World) (c : Call) : (w.issue c).report = w.report := rfl

@[simp] theorem calls_issue (w : World) (c : Call) : (w.issue c).calls = w.calls ++ [c] := rfl

@[simp] theorem slept_issue (w : World) (c : Call) : (w.issue c).slept = w.slept := rfl

@[simp] theorem report_Record (w : World) (e : Entry) : (w.Record e).report = w.report ++ [e] := rfl

@[simp] theorem calls_Record (w : World) (e : Entry) : (w.Record e).calls = w.calls := rfl

@[simp] theorem slept_Record (w : World) (e : Entry) : (w.Record e).slept = w.slept := rfl

/-! ## The polling loop -/

/-- When none of the next `n` polls errs, the loop makes `n` describe calls,
sleeps `n` times and ends with the timeout error. -/
theorem waitLoop_no_error (c : ELBAPI) (input : DescribeLoadBalancersInput) :
    ∀ (n : Nat) (w : World),
      (∀ i, i < n → describeError c (w.describeCount + i) input = none) →
      waitLoop c input n w =
        (⟨w.report, w.calls ++ List.replicate n (Call.DescribeLoadBalancers input), w.slept + n⟩,
          some Error.ElbDeleteError) := by
  intro n
  induction n with
  | zero => intro w _; simp [waitLoop]
  | succ n ih =>
    intro w h
    have h0 : (c.DescribeLoadBalancersWithContext w.describeCount input).2 = none := by
      simpa [describeError] using h 0 (Nat.succ_pos n)
    have hrest : ∀ i, i < n →
        describeError c ((w.issue (.DescribeLoadBalancers input)).Sleep.describeCount + i) input
          = none := by
      intro i hi
      have := h (i + 1) (Nat.succ_lt_succ hi)
      simpa [Nat.add_assoc, Nat.add_comm 1 i] using this
    have step := ih (w.issue (.DescribeLoadBalancers input)).Sleep hrest
    rw [waitLoop]
    simp only [ELBAPI.describe]
    split
    · rename_i w1 out err heq
      simp only [Prod.mk.injEq] at heq
      rw [heq.2] at h0
      exact absurd h0 (by simp)
    · rename_i w1 out heq
      simp only [Prod.mk.injEq] at heq
      rw [← heq.1, step]
      simp [World.issue, World.Sleep, List.replicate_succ, Nat.add_assoc,
        Nat.add_comm 1 n]

/-- When the first poll that errs is poll `j` (counted from 0) of the next
`n`, the loop makes `j + 1` describe calls, sleeps `j` times and ends with
nil for LoadBalancerNotFound and with that error otherwise. -/
theorem waitLoop_first_error (c : ELBAPI) (input : DescribeLoadBalancersInput) (e : Error) :
    ∀ (n : Nat) (w : World) (j : Nat), j < n →
      (∀ i, i < j → describeError c (w.describeCount + i) input = none) →
      describeError c (w.describeCount + j) input = some e →
      waitLoop c input n w =
        (⟨w.report, w.calls ++ List.replicate (j + 1) (Call.DescribeLoadBalancers input), w.slept + j⟩,
          if e.isLoadBalancerNotFound then none else some e) := by
  intro n
  induction n with
  | zero => intro w j hj; exact absurd hj (Nat.not_lt_zero j)
  | succ n ih =>
    intro w j hj hbefore hat
    cases j with
    | zero =>
      have h0 : (c.DescribeLoadBalancersWithContext w.describeCount input).2 = some e := by
        simpa [describeError] using hat
      rw [waitLoop]
      simp only [ELBAPI.describe]
      split
      · rename_i w1 out err heq
        simp only [Prod.mk.injEq] at heq
        rw [heq.2] at h0
        have he : err = e := by simpa using h0
        subst he
        rw [← heq.1]
        by_cases hnf : err.isLoadBalancerNotFound <;>
          simp [hnf, World.issue]
      · rename_i w1 out heq
        simp only [Prod.mk.injEq] at heq
        rw [heq.2] at h0
        exact absurd h0 (by simp)
    | succ j =>
      have h0 : (c.DescribeLoadBalancersWithContext w.describeCount input).2 = none := by
        simpa [describeError] using hbefore 0 (Nat.succ_pos j)
      have hrest : ∀ i, i < j →
          describeError c ((w.issue (.DescribeLoadBalancers input)).Sleep.describeCount + i) input
            = none := by
        intro i hi
        have := hbefore (i + 1) (Nat.succ_lt_succ hi)
        simpa [Nat.add_assoc, Nat.add_comm 1 i] using this
      have hat2 :
          describeError c ((w.issue (.DescribeLoadBalancers input)).Sleep.describeCount + j) input
            = some e := by
        simpa [Nat.add_assoc, Nat.add_comm 1 j] using hat
      have step := ih (w.issue (.DescribeLoadBalancers input)).Sleep j
        (Nat.lt_of_succ_lt_succ hj) hrest hat2
      rw [waitLoop]
      simp only [ELBAPI.describe]
      split
      · rename_i w1 out err heq
        simp only [Prod.mk.injEq] at heq
        rw [heq.2] at h0
        exact absurd h0 (by simp)
      · rename_i w1 out heq
        simp only [Prod.mk.injEq] at heq
        rw [← heq.1, step]
        simp [World.issue, World.Sleep, List.replicate_succ, Nat.add_assoc,
          Nat.add_comm 1 j]

/-- Whatever the client answers, the loop only appends describe calls for
its input: between one and `n` of them when `n` is positive, and it only
sleeps between two polls. It touches neither the ledger nor any delete. -/
theorem waitLoop_shape (c : ELBAPI) (input : DescribeLoadBalancersInput) :
    ∀ (n : Nat) (w : World), ∃ k s, k ≤ n ∧ (0 < n → 0 < k) ∧ s ≤ k ∧
      (waitLoop c input n w).1 =
        ⟨w.report, w.calls ++ List.replicate k (Call.DescribeLoadBalancers input), w.slept + s⟩ := by
  intro n
  induction n with
  | zero => intro w; exact ⟨0, 0, Nat.le_refl 0, fun h => h, Nat.le_refl 0, by simp [waitLoop]⟩
  | succ n ih =>
    intro w
    rw [waitLoop]
    simp only [ELBAPI.describe]
    split
    · rename_i w1 out err heq
      simp only [Prod.mk.injEq] at heq
      refine ⟨1, 0, Nat.succ_le_succ (Nat.zero_le n), fun _ => Nat.one_pos, Nat.zero_le 1, ?_⟩
      rw [← heq.1]
      by_cases hnf : err.isLoadBalancerNotFound <;> simp [hnf, World.issue]
    · rename_i w1 out heq
      simp only [Prod.mk.injEq] at heq
      obtain ⟨k, s, hk, _, hs, hw⟩ := ih w1.Sleep
      refine ⟨k + 1, s + 1, Nat.succ_le_succ hk, fun _ => Nat.succ_pos k,
        Nat.succ_le_succ hs, ?_⟩
      rw [hw, ← heq.1]
      simp [World.issue, World.Sleep, List.replicate_succ, Nat.add_assoc, Nat.add_comm 1 s]

/-! ## The delete loop -/

/-- The delete loop on a batch of (non-nil) names: one delete call and one
ledger entry per name, in input order; the names whose delete returned no
error are appended to `deletedNames`. It does not panic. -/
theorem nukeLoop_names (c : ELBAPI) :
    ∀ (names : List String) (deletedNames : List (Option String)) (w : World),
      nukeLoop c (names.map some) deletedNames w =
        (⟨w.report ++ (names.enumFrom w.deleteCount).map
              (fun p => ⟨p.2, "Load Balancer (v1)", deleteResult c p.1 p.2⟩),
            w.calls ++ names.map (fun name => deleteCall (some name)), w.slept⟩,
          some (deletedNames ++ succeededNames c w.deleteCount names)) := by
  intro names
  induction names with
  | nil => intro deletedNames w; simp [nukeLoop, succeededNames]
  | cons name rest ih =>
    intro deletedNames w
    simp only [List.map_cons, nukeLoop, ELBAPI.delete]
    cases hres : c.DeleteLoadBalancerWithContext w.deleteCount ⟨some name⟩ with
    | some err =>
      simp only
      rw [ih]
      simp [List.enumFrom_cons, deleteResult, hres, succeededNames, StringValue, deleteCall]
    | none =>
      simp only
      rw [ih]
      simp [List.enumFrom_cons, deleteResult, hres, succeededNames, StringValue, deleteCall]

/-- The delete loop on any slice of name pointers: it issues delete calls
for a leading part of the slice, in order, records one entry per call, and
issues no describe call. It stops early only by panicking. -/
theorem nukeLoop_shape (c : ELBAPI) :
    ∀ (names : List (Option String)) (deletedNames : List (Option String)) (w : World),
      ∃ m, m ≤ names.length ∧
        (nukeLoop c names deletedNames w).1.calls = w.calls ++ (names.take m).map deleteCall ∧
        (nukeLoop c names deletedNames w).1.report.length = w.report.length + m ∧
        ((nukeLoop c names deletedNames w).2 ≠ none → m = names.length) := by
  intro names
  induction names with
  | nil => intro deletedNames w; exact ⟨0, Nat.le_refl 0, by simp [nukeLoop]⟩
  | cons name rest ih =>
    intro deletedNames w
    simp only [nukeLoop, ELBAPI.delete]
    cases hres : c.DeleteLoadBalancerWithContext w.deleteCount ⟨name⟩ with
    | some err =>
      simp only
      obtain ⟨m, hm, hc, hr, hf⟩ := ih deletedNames
        ((w.issue (.DeleteLoadBalancer ⟨name⟩)).Record ⟨StringValue name, "Load Balancer (v1)", some err⟩)
      refine ⟨m + 1, Nat.succ_le_succ hm, ?_, ?_, ?_⟩
      · rw [hc]; simp [World.issue, World.Record, deleteCall]
      · rw [hr]; simp [World.issue, World.Record, Nat.add_assoc, Nat.add_comm 1 m]
      · intro h; simp [hf h]
    | none =>
      cases name with
      | none =>
        exact ⟨1, Nat.succ_le_succ (Nat.zero_le _), by simp [World.issue, World.Record, deleteCall],
          by simp [World.issue, World.Record], by simp⟩
      | some n =>
        simp only
        obtain ⟨m, hm, hc, hr, hf⟩ := ih (deletedNames ++ [some n])
          ((w.issue (.DeleteLoadBalancer ⟨some n⟩)).Record ⟨StringValue (some n), "Load Balancer (v1)", none⟩)
        refine ⟨m + 1, Nat.succ_le_succ hm, ?_, ?_, ?_⟩
        · rw [hc]; simp [World.issue, World.Record, deleteCall]
        · rw [hr]; simp [World.issue, World.Record, Nat.add_assoc, Nat.add_comm 1 m]
        · intro h; simp [hf h]

/-! ## Facts about the names that are polled -/

/-- A name is polled exactly when one of its delete calls returned no
error. -/
theorem mem_succeededNames (c : ELBAPI) (k : Nat) (names : List String) (name : String) :
    some name ∈ succeededNames c k names ↔
      ∃ (i : Nat) (_ : i < names.length), names[i] = name ∧ deleteResult c (k + i) name = none := by
  simp only [succeededNames, List.mem_map, List.mem_filter, Option.some.injEq]
  constructor
  · rintro ⟨p, ⟨hp, hres⟩, hname⟩
    obtain ⟨q, x⟩ := p
    have hle := List.le_fst_of_mem_enumFrom hp
    obtain ⟨i, rfl⟩ := Nat.exists_eq_add_of_le hle
    have hget := List.mk_add_mem_enumFrom_iff_getElem?.mp hp
    obtain ⟨hi, hx⟩ := List.getElem?_eq_some.mp hget
    simp only at hname hres
    subst hname
    exact ⟨i, hi, hx, by simpa using hres⟩
  · rintro ⟨i, hi, hx, hres⟩
    refine ⟨(k + i, name), ⟨?_, by simpa using hres⟩, rfl⟩
    exact List.mk_add_mem_enumFrom_iff_getElem?.mpr (List.getElem?_eq_some.mpr ⟨hi, hx⟩)

/-- No name is polled exactly when every delete call of the batch returned
an error. -/
theorem succeededNames_eq_nil_iff (c : ELBAPI) (k : Nat) (names : List String) :
    succeededNames c k names = [] ↔
      ∀ (i : Nat) (_ : i < names.length), deleteResult c (k + i) names[i] ≠ none := by
  simp only [succeededNames, List.map_eq_nil_iff, List.filter_eq_nil_iff]
  rw [List.forall_mem_enumFrom]
  simp

/-- When every delete call of the batch returned no error, every name is
polled. -/
theorem succeededNames_all (c : ELBAPI) :
    ∀ (names : List String) (k : Nat),
      (∀ (i : Nat) (_ : i < names.length), deleteResult c (k + i) names[i] = none) →
      succeededNames c k names = names.map some := by
  intro names
  induction names with
  | nil => intro k _; rfl
  | cons name rest ih =>
    intro k h
    have h0 : deleteResult c k name = none := by simpa using h 0 (Nat.succ_pos _)
    have hrest : ∀ (i : Nat) (_ : i < rest.length), deleteResult c (k + 1 + i) rest[i] = none := by
      intro i hi
      have := h (i + 1) (Nat.succ_lt_succ hi)
      simpa [Nat.add_assoc, Nat.add_comm 1 i] using this
    have := ih (k + 1) hrest
    simp only [succeededNames] at this
    simp [succeededNames, List.enumFrom_cons, h0, this]

/-- The polled names are taken from the batch in input order. -/
theorem succeededNames_sublist (c : ELBAPI) (k : Nat) (names : List String) :
    (succeededNames c k names).Sublist (names.map some) := by
  have h1 : ((names.enumFrom k).filter (fun p => (deleteResult c p.1 p.2).isNone)).Sublist
      (names.enumFrom k) := List.filter_sublist _
  have h2 := h1.map (fun p : Nat × String => some p.2)
  have h3 : (names.enumFrom k).map (fun p : Nat × String => some p.2) = names.map some := by
    have hsnd := List.enumFrom_map_snd k names
    calc (names.enumFrom k).map (fun p : Nat × String => some p.2)
        = ((names.enumFrom k).map Prod.snd).map some := by rw [List.map_map]; rfl
      _ = names.map some := by rw [hsnd]
  rw [h3] at h2
  exact h2

/-! ## nukeAll on a non-empty batch of names -/

/-- The world once the delete loop has gone through the batch. -/
theorem nukeLoop_world (c : ELBAPI) (names : List String) (w : World) :
    (nukeLoop c (names.map some) [] w).1 =
      ⟨w.report ++ (names.enumFrom w.deleteCount).map
          (fun p => ⟨p.2, "Load Balancer (v1)", deleteResult c p.1 p.2⟩),
        w.calls ++ names.map (fun name => deleteCall (some name)), w.slept⟩ := by
  rw [nukeLoop_names]

/-- The run of `nukeAll` on a non-empty batch of names: the delete loop,
then the confirmation step for the names whose delete returned no error,
when there is one. -/
theorem nukeAll_names (c : ELBAPI) (names : List String) (w : World) (h : names ≠ []) :
    nukeAll c (names.map some) w =
      if succeededNames c w.deleteCount names = [] then
        ((nukeLoop c (names.map some) [] w).1, .returned none)
      else
        ((waitUntilElbDeleted c ⟨succeededNames c w.deleteCount names⟩
            (nukeLoop c (names.map some) [] w).1).1,
          .returned ((waitUntilElbDeleted c ⟨succeededNames c w.deleteCount names⟩
            (nukeLoop c (names.map some) [] w).1).2.map WithStackTrace)) := by
  have hlen : ¬ (names.map some).length = 0 := by
    simpa [List.length_eq_zero] using h
  rw [nukeAll, if_neg hlen, nukeLoop_names]
  simp only [List.nil_append]
  by_cases hs : succeededNames c w.deleteCount names = []
  · simp [hs]
  · have hpos : (succeededNames c w.deleteCount names).length > 0 :=
      List.length_pos.mpr hs
    simp only [hpos, if_true, hs, if_false]
    cases hwait : waitUntilElbDeleted c ⟨succeededNames c w.deleteCount names⟩
        ⟨w.report ++ (names.enumFrom w.deleteCount).map
            (fun p => ⟨p.2, "Load Balancer (v1)", deleteResult c p.1 p.2⟩),
          w.calls ++ names.map (fun name => deleteCall (some name)), w.slept⟩ with
    | mk w2 r =>
      cases r <;> simp

/-- The confirmation step only appends describe calls for its input, between
one and thirty of them, and leaves the ledger alone. -/
theorem waitUntilElbDeleted_shape (c : ELBAPI) (input : DescribeLoadBalancersInput) (w : World) :
    ∃ k s, k ≤ 30 ∧ 0 < k ∧ s ≤ k ∧
      (waitUntilElbDeleted c input w).1 =
        ⟨w.report, w.calls ++ List.replicate k (Call.DescribeLoadBalancers input), w.slept + s⟩ := by
  obtain ⟨k, s, hk, hpos, hs, hw⟩ := waitLoop_shape c input 30 w
  exact ⟨k, s, hk, hpos (by decide), hs, hw⟩

/-- The ledger after `nukeAll` on a non-empty batch of names. -/
theorem nukeAll_report (c : ELBAPI) (names : List String) (w : World) (h : names ≠ []) :
    (nukeAll c (names.map some) w).1.report =
      w.report ++ (names.enumFrom w.deleteCount).map
        (fun p => ⟨p.2, "Load Balancer (v1)", deleteResult c p.1 p.2⟩) := by
  rw [nukeAll_names c names w h]
  by_cases hs : succeededNames c w.deleteCount names = []
  · rw [if_pos hs, nukeLoop_world]
  · rw [if_neg hs]
    obtain ⟨k, s, _, _, _, hw⟩ := waitUntilElbDeleted_shape c
      ⟨succeededNames c w.deleteCount names⟩ (nukeLoop c (names.map some) [] w).1
    rw [hw, nukeLoop_world]

/-- The ledger entry that `nukeAll` records for the name at position `i`. -/
theorem nukeAll_report_getElem? (c : ELBAPI) (names : List String) (w : World) (h : names ≠ [])
    (i : Nat) (hi : i < names.length) :
    (nukeAll c (names.map some) w).1.report[w.report.length + i]? =
      some ⟨names[i], "Load Balancer (v1)", deleteResult c (w.deleteCount + i) names[i]⟩ := by
  rw [nukeAll_report c names w h, List.getElem?_append_right (Nat.le_add_right _ _)]
  simp [Nat.add_sub_cancel_left, List.getElem?_eq_getElem hi]

/-- The client calls of `nukeAll` on a non-empty batch of names: one delete
call per name in input order, followed by at most thirty describe calls,
all for the names whose delete returned no error. -/
theorem nukeAll_calls (c : ELBAPI) (names : List String) (w : World) (h : names ≠ []) :
    ∃ k, k ≤ 30 ∧
      (succeededNames c w.deleteCount names = [] → k = 0) ∧
      (succeededNames c w.deleteCount names ≠ [] → 0 < k) ∧
      (nukeAll c (names.map some) w).1.calls =
        w.calls ++ names.map (fun name => deleteCall (some name)) ++
          List.replicate k (Call.DescribeLoadBalancers ⟨succeededNames c w.deleteCount names⟩) := by
  rw [nukeAll_names c names w h]
  by_cases hs : succeededNames c w.deleteCount names = []
  · refine ⟨0, Nat.zero_le _, fun _ => rfl, fun hne => absurd hs hne, ?_⟩
    rw [if_pos hs, nukeLoop_world]
    simp
  · obtain ⟨k, s, hk, hpos, _, hw⟩ := waitUntilElbDeleted_shape c
      ⟨succeededNames c w.deleteCount names⟩ (nukeLoop c (names.map some) [] w).1
    refine ⟨k, hk, fun he => absurd he hs, fun _ => hpos, ?_⟩
    rw [if_neg hs]
    rw [hw, nukeLoop_world]

/-- The client calls of `nukeAll` on any slice of name pointers: delete
calls for a leading part of the slice, then describe calls only. -/
theorem nukeAll_calls_any (c : ELBAPI) (names : List (Option String)) (w : World) :
    ∃ (m k : Nat) (polled : List (Option String)), m ≤ names.length ∧ k ≤ 30 ∧
      (nukeAll c names w).1.calls =
        w.calls ++ (names.take m).map deleteCall ++
          List.replicate k (Call.DescribeLoadBalancers ⟨polled⟩) := by
  unfold nukeAll
  by_cases hlen : names.length = 0
  · exact ⟨0, 0, [], Nat.zero_le _, Nat.zero_le _, by simp [hlen]⟩
  · rw [if_neg hlen]
    obtain ⟨m, hm, hc, _, _⟩ := nukeLoop_shape c names [] w
    cases hloop : nukeLoop c names [] w with
    | mk w1 res =>
      rw [hloop] at hc
      cases res with
      | none => exact ⟨m, 0, [], hm, Nat.zero_le _, by simpa using hc⟩
      | some deletedNames =>
        simp only
        by_cases hd : deletedNames.length > 0
        · rw [if_pos hd]
          obtain ⟨k, s, hk, _, _, hw⟩ := waitUntilElbDeleted_shape c ⟨deletedNames⟩ w1
          refine ⟨m, k, deletedNames, hm, hk, ?_⟩
          cases hwait : waitUntilElbDeleted c ⟨deletedNames⟩ w1 with
          | mk w2 r =>
            rw [hwait] at hw
            simp only at hw hc
            cases r <;> simp [hw, hc]
        · rw [if_neg hd]
          exact ⟨m, 0, [], hm, Nat.zero_le _, by simpa using hc⟩

/-! ## The claims about nukeAll and waitUntilElbDeleted -/

/-- C1: on a non-empty batch of names `nukeAll` appends exactly one ledger
entry per name, in input order: the entry at position `i` has the name at
position `i` as identifier, resource type "Load Balancer (v1)" and the
result of the delete call number `i` of the batch as error, whatever the
delete calls return (a failed delete does not stop the batch). The entries
depend on the delete results only, not on what the confirmation step
returns. -/
theorem nukeAll_records_every_name (c : ELBAPI) (names : List String) (w : World)
    (h : names ≠ []) :
    (nukeAll c (names.map some) w).1.report =
        w.report ++ (names.enumFrom w.deleteCount).map
          (fun p => ⟨p.2, "Load Balancer (v1)", deleteResult c p.1 p.2⟩) ∧
      (nukeAll c (names.map some) w).1.report.length = w.report.length + names.length ∧
      (∀ (i : Nat) (hi : i < names.length),
        (nukeAll c (names.map some) w).1.report[w.report.length + i]? =
          some ⟨names[i], "Load Balancer (v1)", deleteResult c (w.deleteCount + i) names[i]⟩) ∧
      (∀ c2 : ELBAPI,
        c2.DeleteLoadBalancerWithContext = c.DeleteLoadBalancerWithContext →
        (nukeAll c2 (names.map some) w).1.report = (nukeAll c (names.map some) w).1.report) := by
  refine ⟨nukeAll_report c names w h, ?_, fun i hi => nukeAll_report_getElem? c names w h i hi, ?_⟩
  · rw [nukeAll_report c names w h]; simp
  · intro c2 hsame
    rw [nukeAll_report c names w h, nukeAll_report c2 names w h]
    simp [deleteResult, hsame]

/-- C1 at a batch of three names whose second delete fails and whose
confirmation step fails. -/
theorem nukeAll_records_every_name_witness :
    (nukeAll flakyClient (["a", "b", "c"].map some) World.empty).1.report =
      [⟨"a", "Load Balancer (v1)", none⟩,
        ⟨"b", "Load Balancer (v1)", some (.plain "AccessDenied")⟩,
        ⟨"c", "Load Balancer (v1)", none⟩] ∧
    (nukeAll flakyClient (["a", "b", "c"].map some) World.empty).2 =
      .returned (some (.withStackTrace (.plain "Throttling"))) :=
  ⟨(nukeAll_records_every_name flakyClient ["a", "b", "c"] World.empty (by decide)).1, by decide⟩

/-- C2: on an empty (or nil) slice `nukeAll` returns nil and leaves the
world as it was: no ledger entry, no delete call, no describe call. -/
theorem nukeAll_empty (c : ELBAPI) (w : World) :
    nukeAll c [] w = (w, .returned none) := by
  simp [nukeAll]

/-- C5: when none of the first thirty polls returns an error,
`waitUntilElbDeleted` makes exactly thirty describe calls, issues no delete
call, leaves the ledger alone and returns the timeout error
`ElbDeleteError`. In every run of `nukeAll` all delete calls come before the
first describe call, one delete per position of the slice, so that nothing
is deleted again once polling has started. -/
theorem waitUntilElbDeleted_timeout (c : ELBAPI) (input : DescribeLoadBalancersInput) (w : World)
    (h : ∀ i, i < 30 → describeError c (w.describeCount + i) input = none) :
    waitUntilElbDeleted c input w =
        (⟨w.report, w.calls ++ List.replicate 30 (Call.DescribeLoadBalancers input), w.slept + 30⟩,
          some Error.ElbDeleteError) ∧
      (∀ (names : List (Option String)) (w0 : World),
        ∃ (m k : Nat) (polled : List (Option String)), m ≤ names.length ∧ k ≤ 30 ∧
          (nukeAll c names w0).1.calls =
            w0.calls ++ (names.take m).map deleteCall ++
              List.replicate k (Call.DescribeLoadBalancers ⟨polled⟩)) :=
  ⟨waitLoop_no_error c input 30 w h, fun names w0 => nukeAll_calls_any c names w0⟩

/-- C5 at a client on which the load balancer never disappears. -/
theorem waitUntilElbDeleted_timeout_witness :
    (waitUntilElbDeleted lingeringClient ⟨[some "lb"]⟩ World.empty).2 = some Error.ElbDeleteError ∧
    (waitUntilElbDeleted lingeringClient ⟨[some "lb"]⟩ World.empty).1.calls =
      List.replicate 30 (Call.DescribeLoadBalancers ⟨[some "lb"]⟩) :=
  have hrun := (waitUntilElbDeleted_timeout lingeringClient ⟨[some "lb"]⟩ World.empty
    (fun _ _ => rfl)).1
  ⟨by rw [hrun], by rw [hrun]; rfl⟩

/-- C6: when the first poll that returns an error is poll number `k`, with
`1 ≤ k ≤ 30`, `waitUntilElbDeleted` makes exactly `k` describe calls and
returns nil when that error is an AWS error with code LoadBalancerNotFound,
and that same error otherwise. -/
theorem waitUntilElbDeleted_first_error (c : ELBAPI) (input : DescribeLoadBalancersInput)
    (w : World) (k : Nat) (e : Error) (hk1 : 1 ≤ k) (hk : k ≤ 30)
    (hbefore : ∀ i, i + 1 < k → describeError c (w.describeCount + i) input = none)
    (hat : describeError c (w.describeCount + (k - 1)) input = some e) :
    waitUntilElbDeleted c input w =
      (⟨w.report, w.calls ++ List.replicate k (Call.DescribeLoadBalancers input),
          w.slept + (k - 1)⟩,
        if e.isLoadBalancerNotFound then none else some e) := by
  obtain ⟨j, rfl⟩ : ∃ j, k = j + 1 := ⟨k - 1, (Nat.sub_add_cancel hk1).symm⟩
  simp only [Nat.add_sub_cancel] at hat ⊢
  exact waitLoop_first_error c input e 30 w j hk
    (fun i hi => hbefore i (Nat.succ_lt_succ hi)) hat

/-- C6 at a client whose third poll is the first to fail, with an error
other than LoadBalancerNotFound. -/
theorem waitUntilElbDeleted_first_error_witness :
    waitUntilElbDeleted flakyClient ⟨[some "lb"]⟩ World.empty =
      (⟨[], List.replicate 3 (Call.DescribeLoadBalancers ⟨[some "lb"]⟩), 2⟩,
        some (.plain "Throttling")) :=
  waitUntilElbDeleted_first_error flakyClient ⟨[some "lb"]⟩ World.empty 3 (.plain "Throttling")
    (by decide) (by decide)
    (fun i hi => by
      have hcases : i = 0 ∨ i = 1 := by omega
      rcases hcases with rfl | rfl <;> rfl)
    (by decide)

/-- The delete loop issues no describe call. -/
theorem nukeLoop_describeCount (c : ELBAPI) (names : List String) (w : World) :
    (nukeLoop c (names.map some) [] w).1.describeCount = w.describeCount := by
  rw [nukeLoop_world]
  simp [World.describeCount, List.countP_append, List.countP_eq_zero, deleteCall, Call.isDescribe]

/-- C3: on a non-empty batch of names `nukeAll` returns (it does not panic),
and its error is nil when no delete succeeded and otherwise the error of
the confirmation step wrapped by `WithStackTrace`; a delete error is never
returned. So the error is non-nil exactly when some delete call succeeded
and `waitUntilElbDeleted` returned an error. When every delete fails the
result is nil; when every delete succeeds and the first poll that errs,
within the thirty polls, reports LoadBalancerNotFound, the result is nil
and every recorded entry carries no error. -/
theorem nukeAll_error_iff_confirmation_error (c : ELBAPI) (names : List String) (w : World)
    (h : names ≠ []) :
    (nukeAll c (names.map some) w).2 =
        .returned
          (if succeededNames c w.deleteCount names = [] then none
           else (waitUntilElbDeleted c ⟨succeededNames c w.deleteCount names⟩
              (nukeLoop c (names.map some) [] w).1).2.map WithStackTrace) ∧
      ((∃ e, (nukeAll c (names.map some) w).2 = .returned (some e)) ↔
        ((∃ (i : Nat) (_ : i < names.length), deleteResult c (w.deleteCount + i) names[i] = none) ∧
          (waitUntilElbDeleted c ⟨succeededNames c w.deleteCount names⟩
            (nukeLoop c (names.map some) [] w).1).2 ≠ none)) ∧
      ((∀ (i : Nat) (_ : i < names.length), deleteResult c (w.deleteCount + i) names[i] ≠ none) →
        (nukeAll c (names.map some) w).2 = .returned none) ∧
      (∀ (k : Nat) (e : Error), k < 30 →
        (∀ (i : Nat) (_ : i < names.length), deleteResult c (w.deleteCount + i) names[i] = none) →
        (∀ j, j < k → describeError c (w.describeCount + j) ⟨names.map some⟩ = none) →
        describeError c (w.describeCount + k) ⟨names.map some⟩ = some e →
        e.isLoadBalancerNotFound = true →
        (nukeAll c (names.map some) w).2 = .returned none ∧
          ∀ entry ∈ (nukeAll c (names.map some) w).1.report.drop w.report.length,
            entry.Error = none) := by
  have hret : (nukeAll c (names.map some) w).2 =
      .returned
        (if succeededNames c w.deleteCount names = [] then none
         else (waitUntilElbDeleted c ⟨succeededNames c w.deleteCount names⟩
            (nukeLoop c (names.map some) [] w).1).2.map WithStackTrace) := by
    rw [nukeAll_names c names w h]
    by_cases hs : succeededNames c w.deleteCount names = [] <;> simp [hs]
  have hnil := succeededNames_eq_nil_iff c w.deleteCount names
  refine ⟨hret, ?_, ?_, ?_⟩
  · rw [hret]
    by_cases hs : succeededNames c w.deleteCount names = []
    · have hall := hnil.mp hs
      simp only [hs, if_true]
      constructor
      · rintro ⟨e, he⟩
        simp at he
      · rintro ⟨⟨i, hi, hres⟩, _⟩
        exact absurd hres (hall i hi)
    · have hex : ∃ (i : Nat) (_ : i < names.length),
          deleteResult c (w.deleteCount + i) names[i] = none := by
        by_contra hno
        apply hs
        apply hnil.mpr
        intro i hi hres
        exact hno ⟨i, hi, hres⟩
      simp only [hs, if_false]
      constructor
      · rintro ⟨e, he⟩
        refine ⟨hex, ?_⟩
        intro hnone
        rw [hnone] at he
        simp at he
      · rintro ⟨_, hne⟩
        cases hwait : (waitUntilElbDeleted c ⟨succeededNames c w.deleteCount names⟩
            (nukeLoop c (names.map some) [] w).1).2 with
        | none => exact absurd hwait hne
        | some e => exact ⟨WithStackTrace e, by simp⟩
  · intro hall
    rw [hret, if_pos (hnil.mpr hall)]
  · intro k e hk hall hbefore hat hnf
    have hsucc := succeededNames_all c names w.deleteCount hall
    have hne : succeededNames c w.deleteCount names ≠ [] := by
      rw [hsucc]
      simpa using h
    have hcount := nukeLoop_describeCount c names w
    have hwait := waitLoop_first_error c ⟨names.map some⟩ e 30
      (nukeLoop c (names.map some) [] w).1 k hk
      (by rw [hcount]; exact hbefore) (by rw [hcount]; exact hat)
    constructor
    · rw [hret, if_neg hne, hsucc]
      unfold waitUntilElbDeleted
      rw [hwait]
      simp [hnf]
    · intro entry hentry
      rw [nukeAll_report c names w h] at hentry
      simp only [List.drop_left, List.mem_map] at hentry
      obtain ⟨p, hp, rfl⟩ := hentry
      obtain ⟨q, x⟩ := p
      have hle := List.le_fst_of_mem_enumFrom hp
      obtain ⟨i, rfl⟩ := Nat.exists_eq_add_of_le hle
      have hget := List.mk_add_mem_enumFrom_iff_getElem?.mp hp
      obtain ⟨hi, hx⟩ := List.getElem?_eq_some.mp hget
      have := hall i hi
      rw [hx] at this
      exact this

/-- C3 at the batch `["test"]` against a client on which every delete
succeeds and the first poll reports LoadBalancerNotFound: no error is
returned and the one recorded entry is a success. -/
theorem nukeAll_error_iff_confirmation_error_witness :
    (nukeAll goneClient (["test"].map some) World.empty).2 = .returned none ∧
    ∀ entry ∈ (nukeAll goneClient (["test"].map some) World.empty).1.report.drop
        World.empty.report.length,
      entry.Error = none :=
  (nukeAll_error_iff_confirmation_error goneClient ["test"] World.empty (by decide)).2.2.2
    0 (.awserr "LoadBalancerNotFound" "no such load balancer") (by decide)
    (fun i hi => by
      have hzero : i = 0 := by simpa using hi
      subst hzero
      rfl)
    (fun j hj => absurd hj (Nat.not_lt_zero j)) rfl rfl

/-- C4 as stated fails: a delete call that returns a LoadBalancerNotFound
error is recorded with that error, that is, as a failure. -/
theorem nukeAll_records_not_found_as_failure :
    deleteResult alreadyGoneClient World.empty.deleteCount "lb" =
        some (.awserr "LoadBalancerNotFound" "no such load balancer") ∧
      (Error.awserr "LoadBalancerNotFound" "no such load balancer").isLoadBalancerNotFound = true ∧
      (nukeAll alreadyGoneClient [some "lb"] World.empty).1.report =
        [⟨"lb", "Load Balancer (v1)",
          some (.awserr "LoadBalancerNotFound" "no such load balancer")⟩] := by
  decide

/-- C4 (amended): the ledger entry recorded for an identifier carries the
error returned by its delete call unchanged. When the delete call returns
a "not found" error the entry carries that error, and the entry is a
success (nil error) exactly when the delete call returned no error. -/
theorem nukeAll_records_delete_error_unchanged (c : ELBAPI) (names : List String) (w : World)
    (i : Nat) (hi : i < names.length) :
    ∃ entry : Entry,
      (nukeAll c (names.map some) w).1.report[w.report.length + i]? = some entry ∧
      entry.Identifier = names[i] ∧
      entry.Error = deleteResult c (w.deleteCount + i) names[i] ∧
      (∀ e : Error, deleteResult c (w.deleteCount + i) names[i] = some e →
        e.isLoadBalancerNotFound = true → entry.Error = some e) ∧
      (entry.Error = none ↔ deleteResult c (w.deleteCount + i) names[i] = none) := by
  have h : names ≠ [] := by
    intro hnil
    rw [hnil] at hi
    exact absurd hi (Nat.not_lt_zero i)
  exact ⟨_, nukeAll_report_getElem? c names w h i hi, rfl, rfl, fun e he _ => he, Iff.rfl⟩

/-- C4 (amended) at a batch whose second delete fails. -/
theorem nukeAll_records_delete_error_unchanged_witness :
    ∃ entry : Entry,
      (nukeAll flakyClient (["a", "b"].map some) World.empty).1.report[World.empty.report.length + 1]?
        = some entry ∧
      entry.Identifier = "b" ∧
      entry.Error = deleteResult flakyClient (World.empty.deleteCount + 1) "b" ∧
      (∀ e : Error, deleteResult flakyClient (World.empty.deleteCount + 1) "b" = some e →
        e.isLoadBalancerNotFound = true → entry.Error = some e) ∧
      (entry.Error = none ↔ deleteResult flakyClient (World.empty.deleteCount + 1) "b" = none) :=
  nukeAll_records_delete_error_unchanged flakyClient ["a", "b"] World.empty 1 (by decide)

/-- C10: on a non-empty batch of names the client calls of `nukeAll` are
the delete calls, one per name in input order, followed by the describe
calls of one confirmation step (at most thirty polls, at least one when a
delete succeeded), every one of them for exactly the names whose delete
call returned no error, in input order. When no delete succeeded no
describe call is made. -/
theorem nukeAll_polls_deleted_names_after_deletes (c : ELBAPI) (names : List String) (w : World)
    (h : names ≠ []) :
    (∃ k, k ≤ 30 ∧
      (succeededNames c w.deleteCount names = [] → k = 0) ∧
      (succeededNames c w.deleteCount names ≠ [] → 0 < k) ∧
      (nukeAll c (names.map some) w).1.calls =
        w.calls ++ names.map (fun name => deleteCall (some name)) ++
          List.replicate k (Call.DescribeLoadBalancers ⟨succeededNames c w.deleteCount names⟩)) ∧
      (succeededNames c w.deleteCount names).Sublist (names.map some) ∧
      (∀ name : String, some name ∈ succeededNames c w.deleteCount names ↔
        ∃ (i : Nat) (_ : i < names.length),
          names[i] = name ∧ deleteResult c (w.deleteCount + i) name = none) ∧
      ((∀ (i : Nat) (_ : i < names.length), deleteResult c (w.deleteCount + i) names[i] ≠ none) →
        (nukeAll c (names.map some) w).1.calls =
          w.calls ++ names.map (fun name => deleteCall (some name))) := by
  refine ⟨nukeAll_calls c names w h, succeededNames_sublist c w.deleteCount names,
    fun name => mem_succeededNames c w.deleteCount names name, ?_⟩
  intro hall
  obtain ⟨k, _, hzero, _, hcalls⟩ := nukeAll_calls c names w h
  have hk := hzero ((succeededNames_eq_nil_iff c w.deleteCount names).mpr hall)
  rw [hcalls, hk]
  simp

/-- C10 at a batch of three names whose second delete fails: the polls
query the first and the third name only. -/
theorem nukeAll_polls_deleted_names_after_deletes_witness :
    succeededNames flakyClient World.empty.deleteCount ["a", "b", "c"] = [some "a", some "c"] ∧
    (nukeAll flakyClient (["a", "b", "c"].map some) World.empty).1.calls =
      [deleteCall (some "a"), deleteCall (some "b"), deleteCall (some "c"),
        Call.DescribeLoadBalancers ⟨[some "a", some "c"]⟩,
        Call.DescribeLoadBalancers ⟨[some "a", some "c"]⟩,
        Call.DescribeLoadBalancers ⟨[some "a", some "c"]⟩] ∧
    (succeededNames flakyClient World.empty.deleteCount ["a", "b", "c"]).Sublist
      (["a", "b", "c"].map some) :=
  ⟨by decide, by decide,
    (nukeAll_polls_deleted_names_after_deletes flakyClient ["a", "b", "c"] World.empty
      (by decide)).2.1⟩

/-! ## The claims about getAll -/

/-- The loop of `getAll` appends, in listing order, the name of every
description that the filter includes. -/
theorem getAllLoop_eq (ShouldInclude : ResourceType → ResourceValue → Bool) (configObj : Config) :
    ∀ (listing : List LoadBalancerDescription) (names : List (Option String)),
      getAllLoop ShouldInclude configObj listing names =
        names ++ (listing.filter (fun b =>
          ShouldInclude configObj.ELBv1 ⟨b.LoadBalancerName, b.CreatedTime, []⟩)).map
            (fun b => b.LoadBalancerName) := by
  intro listing
  induction listing with
  | nil => intro names; simp [getAllLoop]
  | cons b rest ih =>
    intro names
    by_cases hb : ShouldInclude configObj.ELBv1 ⟨b.LoadBalancerName, b.CreatedTime, []⟩ = true
    · simp [getAllLoop, hb, ih]
    · simp [getAllLoop, hb, ih]

/-- The result of `getAll` in terms of the answer of its describe call. -/
theorem getAll_eq (ShouldInclude : ResourceType → ResourceValue → Bool) (c : ELBAPI)
    (configObj : Config) (w : World) :
    getAll ShouldInclude c configObj w =
      (w.issue (.DescribeLoadBalancers ⟨[]⟩),
        match c.DescribeLoadBalancersWithContext w.describeCount ⟨[]⟩ with
        | (_, some err) => ([], some (WithStackTrace err))
        | (result, none) =>
          ((result.LoadBalancerDescriptions.filter (fun b =>
              ShouldInclude configObj.ELBv1 ⟨b.LoadBalancerName, b.CreatedTime, []⟩)).map
                (fun b => b.LoadBalancerName), none)) := by
  unfold getAll ELBAPI.describe
  cases hres : c.DescribeLoadBalancersWithContext w.describeCount ⟨[]⟩ with
  | mk result err =>
    cases err with
    | some e => rfl
    | none => simp [getAllLoop_eq]

/-- C7: `getAll` makes one describe call. When it succeeds, the result is
the names of the listed load balancers for which `ShouldInclude(Name,
CreatedTime)` is true, in listing order, each as often as it is listed and
included (no sorting, no de-duplication), with a nil error. When it fails,
the result is no names and a non-nil error. This holds for every filter
method `ShouldInclude`. -/
theorem getAll_filters_in_listing_order (ShouldInclude : ResourceType → ResourceValue → Bool)
    (c : ELBAPI) (configObj : Config) (w : World) :
    getAll ShouldInclude c configObj w =
        (w.issue (.DescribeLoadBalancers ⟨[]⟩),
          match c.DescribeLoadBalancersWithContext w.describeCount ⟨[]⟩ with
          | (_, some err) => ([], some (WithStackTrace err))
          | (result, none) =>
            ((result.LoadBalancerDescriptions.filter (fun b =>
                ShouldInclude configObj.ELBv1 ⟨b.LoadBalancerName, b.CreatedTime, []⟩)).map
                  (fun b => b.LoadBalancerName), none)) ∧
      (∀ name : Option String,
        (getAll ShouldInclude c configObj w).2.1.count name =
          match c.DescribeLoadBalancersWithContext w.describeCount ⟨[]⟩ with
          | (_, some _) => 0
          | (result, none) =>
            result.LoadBalancerDescriptions.countP (fun b =>
              ShouldInclude configObj.ELBv1 ⟨b.LoadBalancerName, b.CreatedTime, []⟩ &&
                b.LoadBalancerName == name)) := by
  refine ⟨getAll_eq ShouldInclude c configObj w, ?_⟩
  intro name
  rw [getAll_eq]
  cases hres : c.DescribeLoadBalancersWithContext w.describeCount ⟨[]⟩ with
  | mk result err =>
    cases err with
    | some e => simp
    | none =>
      simp only [List.count, List.countP_map, List.countP_filter]
      congr 1
      funext b
      simp [Bool.and_comm]

/-- A candidate that is newer than the exclusion time threshold is not
included, whatever the other rules are. -/
theorem ShouldInclude_false_of_newer (r : ResourceType) (value : ResourceValue) (T t : Int)
    (hT : r.ExcludeRule.TimeAfter = some T) (ht : value.Time = some t) (hlt : T < t) :
    r.ShouldInclude value = false := by
  unfold ResourceType.ShouldInclude
  by_cases hname : matchesAnyName r.ExcludeRule.NamesRegExp value.Name = true
  · simp [hname]
  · simp [hname, hT, ht, isAfterThreshold, hlt]

/-- A candidate whose name matches an exclusion name pattern is not
included, whatever the other rules are. -/
theorem ShouldInclude_false_of_excluded_name (r : ResourceType) (value : ResourceValue)
    (h : matchesAnyName r.ExcludeRule.NamesRegExp value.Name = true) :
    r.ShouldInclude value = false := by
  simp [ResourceType.ShouldInclude, h]

/-- The filter decides as the rule set without exclusion name patterns
does, except that it drops the candidates matching such a pattern. -/
theorem ShouldInclude_eq_withoutNameExclusion (r : ResourceType) (value : ResourceValue) :
    r.ShouldInclude value =
      (!matchesAnyName r.ExcludeRule.NamesRegExp value.Name &&
        r.withoutNameExclusion.ShouldInclude value) := by
  have hnone : matchesAnyName [] value.Name = false := by
    cases value.Name <;> simp [matchesAnyName]
  by_cases hname : matchesAnyName r.ExcludeRule.NamesRegExp value.Name = true
  · simp [ResourceType.ShouldInclude, hname]
  · simp [ResourceType.ShouldInclude, ResourceType.withoutNameExclusion, hname, hnone]

/-- C8: when `ExcludeRule.TimeAfter` is set to `T`, the result of `getAll`
consists of the names of some of the listed load balancers, in listing
order, none of which has a creation time strictly after `T`, whatever
the other rules are; when every listed load balancer is newer than `T` the
result is empty. -/
theorem getAll_excludes_newer_than_TimeAfter (c : ELBAPI) (configObj : Config) (w : World)
    (T : Int) (hT : configObj.ELBv1.ExcludeRule.TimeAfter = some T) :
    (∃ kept : List LoadBalancerDescription,
      kept.Sublist
        (c.DescribeLoadBalancersWithContext w.describeCount ⟨[]⟩).1.LoadBalancerDescriptions ∧
      (getAll ResourceType.ShouldInclude c configObj w).2.1 =
        kept.map (fun b => b.LoadBalancerName) ∧
      ∀ b ∈ kept, ∀ t : Int, b.CreatedTime = some t → ¬ T < t) ∧
    ((∀ b ∈ (c.DescribeLoadBalancersWithContext w.describeCount ⟨[]⟩).1.LoadBalancerDescriptions,
        ∃ t : Int, b.CreatedTime = some t ∧ T < t) →
      (getAll ResourceType.ShouldInclude c configObj w).2.1 = []) := by
  rw [getAll_eq]
  cases hres : c.DescribeLoadBalancersWithContext w.describeCount ⟨[]⟩ with
  | mk result err =>
    cases err with
    | some e =>
      exact ⟨⟨[], List.nil_sublist _, rfl, fun b hb => absurd hb (List.not_mem_nil b)⟩,
        fun _ => rfl⟩
    | none =>
      constructor
      · refine ⟨result.LoadBalancerDescriptions.filter (fun b =>
          configObj.ELBv1.ShouldInclude ⟨b.LoadBalancerName, b.CreatedTime, []⟩),
          List.filter_sublist _, rfl, ?_⟩
        intro b hb t ht hlt
        have hinc := (List.mem_filter.mp hb).2
        rw [ShouldInclude_false_of_newer configObj.ELBv1 ⟨b.LoadBalancerName, b.CreatedTime, []⟩
          T t hT ht hlt] at hinc
        exact absurd hinc (by simp)
      · intro hall
        simp only [List.map_eq_nil_iff, List.filter_eq_nil_iff]
        intro b hb
        obtain ⟨t, ht, hlt⟩ := hall b hb
        rw [ShouldInclude_false_of_newer configObj.ELBv1 ⟨b.LoadBalancerName, b.CreatedTime, []⟩
          T t hT ht hlt]
        simp

/-- C8 at two load balancers created at instant 3600 and a threshold one
hour earlier: both are newer than the threshold and the result is empty. -/
theorem getAll_excludes_newer_than_TimeAfter_witness :
    (getAll ResourceType.ShouldInclude
      (listingClient [⟨some "test-lb1", some 3600⟩, ⟨some "test-lb2", some 3600⟩])
      ⟨⟨⟨[], none, none⟩, ⟨[], some 0, none⟩⟩⟩ World.empty).2.1 = [] :=
  (getAll_excludes_newer_than_TimeAfter
    (listingClient [⟨some "test-lb1", some 3600⟩, ⟨some "test-lb2", some 3600⟩])
    ⟨⟨⟨[], none, none⟩, ⟨[], some 0, none⟩⟩⟩ World.empty 0 rfl).2
    (by decide)

/-- C9: a name that matches some pattern of `ExcludeRule.NamesRegExp` is
absent from the result of `getAll`, whatever the inclusion rules are; the
result is, in listing order, the names of the listed candidates that match
no exclusion name pattern and that the rule set without these patterns
includes. -/
theorem getAll_excludes_names_matching_exclusion (c : ELBAPI) (configObj : Config) (w : World) :
    (∀ name : String,
      (∃ re ∈ configObj.ELBv1.ExcludeRule.NamesRegExp, re.MatchString name = true) →
      some name ∉ (getAll ResourceType.ShouldInclude c configObj w).2.1) ∧
    (getAll ResourceType.ShouldInclude c configObj w).2.1 =
      match c.DescribeLoadBalancersWithContext w.describeCount ⟨[]⟩ with
      | (_, some _) => []
      | (result, none) =>
        (result.LoadBalancerDescriptions.filter (fun b =>
          !matchesAnyName configObj.ELBv1.ExcludeRule.NamesRegExp b.LoadBalancerName &&
            configObj.ELBv1.withoutNameExclusion.ShouldInclude
              ⟨b.LoadBalancerName, b.CreatedTime, []⟩)).map (fun b => b.LoadBalancerName) := by
  rw [getAll_eq]
  cases hres : c.DescribeLoadBalancersWithContext w.describeCount ⟨[]⟩ with
  | mk result err =>
    cases err with
    | some e => exact ⟨fun name _ hmem => absurd hmem (List.not_mem_nil _), rfl⟩
    | none =>
      constructor
      · rintro name ⟨re, hre, hmatch⟩ hmem
        simp only [List.mem_map, List.mem_filter] at hmem
        obtain ⟨b, ⟨_, hinc⟩, hname⟩ := hmem
        have hexcl : matchesAnyName configObj.ELBv1.ExcludeRule.NamesRegExp
            (ResourceValue.mk b.LoadBalancerName b.CreatedTime []).Name = true := by
          simp only [hname, matchesAnyName, List.any_eq_true]
          exact ⟨re, hre, hmatch⟩
        rw [ShouldInclude_false_of_excluded_name configObj.ELBv1 _ hexcl] at hinc
        exact absurd hinc (by simp)
      · simp only
        congr 1
        apply List.filter_congr
        intro b _
        exact ShouldInclude_eq_withoutNameExclusion configObj.ELBv1 _

/-- C9 at two load balancers and an exclusion pattern matching the first
name, which an inclusion pattern matches too: the first name is absent. -/
theorem getAll_excludes_names_matching_exclusion_witness :
    some "test-lb1" ∉
      (getAll ResourceType.ShouldInclude
        (listingClient [⟨some "test-lb1", some 3600⟩, ⟨some "test-lb2", some 3600⟩])
        ⟨⟨⟨[onlyTestLb1], none, none⟩, ⟨[onlyTestLb1], none, none⟩⟩⟩ World.empty).2.1 :=
  (getAll_excludes_names_matching_exclusion
    (listingClient [⟨some "test-lb1", some 3600⟩, ⟨some "test-lb2", some 3600⟩])
    ⟨⟨⟨[onlyTestLb1], none, none⟩, ⟨[onlyTestLb1], none, none⟩⟩⟩ World.empty).1
    "test-lb1" ⟨onlyTestLb1, List.mem_singleton.mpr rfl, by decide⟩

/-! ## The scenarios of the test fixtures, evaluated -/

/-- With no rule both listed load balancers are returned, in listing
order. -/
theorem getAll_emptyFilter :
    (getAll ResourceType.ShouldInclude
      (listingClient [⟨some "test-lb1", some 3600⟩, ⟨some "test-lb2", some 3600⟩])
      ⟨emptyRules⟩ World.empty).2 = ([some "test-lb1", some "test-lb2"], none) := by
  decide

/-- With an exclusion pattern for the first name only the second load
balancer is returned. -/
theorem getAll_nameExclusionFilter :
    (getAll ResourceType.ShouldInclude
      (listingClient [⟨some "test-lb1", some 3600⟩, ⟨some "test-lb2", some 3600⟩])
      ⟨⟨⟨[], none, none⟩, ⟨[onlyTestLb1], none, none⟩⟩⟩ World.empty).2 =
      ([some "test-lb2"], none) := by
  decide

/-- A name listed twice and included is returned twice. -/
theorem getAll_keeps_duplicates :
    (getAll ResourceType.ShouldInclude
      (listingClient [⟨some "b", some 1⟩, ⟨some "a", some 2⟩, ⟨some "b", some 3⟩])
      ⟨emptyRules⟩ World.empty).2 = ([some "b", some "a", some "b"], none) := by
  decide

/-- A nil name pointer whose delete succeeds makes `nukeAll` panic at
`*name`, after the entry was recorded and before the next name. -/
theorem nukeAll_nil_name_panics :
    nukeAll goneClient [none, some "a"] World.empty =
      (⟨[⟨"", "Load Balancer (v1)", none⟩], [deleteCall none], 0⟩, .panicked) := by
  decide

end CloudNuke
